import Mathlib

set_option linter.unusedVariables false
set_option maxRecDepth 8000

/-!
# Shallow embedding of the MTGA-Patcher core (src/main.go)

Byte buffers are `List Nat` (each entry one byte); Go `uint32` casts are
modelled with `% 2^32`; fallible operations return `Except Err`.  An
`io.Reader` is modelled as a list of chunks: each call to `Read` delivers
bytes from the front chunk only (so it may deliver fewer bytes than
requested, exactly as `io.Reader.Read` may), while `io.ReadFull` /
`binary.Read` keep pulling chunks until the requested count is obtained.
-/

/-- `2^32`, the modulus of Go `uint32` arithmetic. -/
def U32 : Nat := 4294967296

/-- The ASCII bytes of the magic identifier `"MTGADIFF"` (src/main.go:95). -/
def IDENTIFIER : List Nat := [77, 84, 71, 65, 68, 73, 70, 70]

/-- src/main.go:96 -/
def VERSION_MAJOR : Nat := 1

/-- src/main.go:97 -/
def VERSION_MINOR : Nat := 0

/-- Model of `crypto/sha256.Sum256` (an external library function).  The
claims use only that the digest is a deterministic 32-entry value that is
collision-free on the buffers involved, so SHA-256 is modelled as an
injective executable digest: the buffer is folded into a single natural
number with `Nat.pair` (injective in both arguments), stored in the first
of the 32 entries. -/
def sha256 (b : List Nat) : List Nat :=
  b.foldr (fun x r => Nat.pair (x + 1) r) 0 :: List.replicate 31 0

/-- src/main.go:100-103. `Offset` is a Go `uint32` (so `< 2^32` whenever the
value was produced by the Go program); `Content` is a `[]byte`. -/
structure PatchItem where
  Offset : Nat
  Content : List Nat
deriving DecidableEq, Repr

/-- src/main.go:105-111. Lengths are Go `uint32` fields, checksums `[32]byte`. -/
structure PatchFile where
  OriginalLength : Nat
  OriginalChecksum : List Nat
  PatchedLength : Nat
  PatchedChecksum : List Nat
  PatchItems : List PatchItem
deriving DecidableEq, Repr

/-- The typed failures of the core (spec section 7); the Go code returns them
as `errors.New` strings.  `boundsViolation` models the Go runtime panic
raised by an out-of-range slice expression. -/
inductive Err where
  | emptyInput
  | malformedFormat
  | unsupportedVersion
  | truncatedData
  | originalLengthMismatch
  | originalChecksumMismatch
  | patchedLengthMismatch
  | patchedChecksumMismatch
  | boundsViolation
deriving DecidableEq, Repr

deriving instance DecidableEq for Except

/-! ## DiffEngine: generatePatch (src/main.go:261-323) -/

/-- The scan loop of `generatePatch` (src/main.go:285-310).  `fuel` is the
number of remaining iterations (`minLength - i`), so the loop runs for
`i, i+1, ..., i+fuel-1`; when the fuel is exhausted the still-open run is
flushed, which models the post-loop flush at src/main.go:304-310.
`currentData` and `diffOffsetStart` are the loop-carried mutable variables;
closing a run appends `PatchItem{Offset: uint32(diffOffsetStart),
Content: currentData}`. -/
def generateLoop (original modified : List Nat) (fuel i : Nat)
    (currentData : List Nat) (diffOffsetStart : Nat) : List PatchItem :=
  match fuel with
  | 0 =>
    if currentData.length > 0 then
      [{ Offset := diffOffsetStart % U32, Content := currentData }]
    else []
  | f + 1 =>
    if original.getD i 0 ≠ modified.getD i 0 then
      let ds := if currentData.length = 0 then i else diffOffsetStart
      generateLoop original modified f (i + 1)
        (currentData ++ [modified.getD i 0]) ds
    else
      if currentData.length > 0 then
        { Offset := diffOffsetStart % U32, Content := currentData } ::
          generateLoop original modified f (i + 1) [] diffOffsetStart
      else
        generateLoop original modified f (i + 1) currentData diffOffsetStart

/-- src/main.go:261-323. -/
def generatePatch (original modified : List Nat) : Except Err PatchFile :=
  if original.length = 0 ∨ modified.length = 0 then
    .error .emptyInput
  else
    let patch : PatchFile :=
      { OriginalLength := original.length % U32
        OriginalChecksum := sha256 original
        PatchedLength := modified.length % U32
        PatchedChecksum := sha256 modified
        PatchItems := [] }
    if patch.OriginalLength = patch.PatchedLength ∧
        patch.OriginalChecksum = patch.PatchedChecksum then
      .ok patch
    else
      let minLength := min original.length modified.length
      let scanned := generateLoop original modified minLength 0 [] 0
      let items :=
        if original.length < modified.length then
          scanned ++ [{ Offset := original.length % U32
                        Content := modified.drop original.length }]
        else scanned
      .ok { patch with PatchItems := items }

/-! ## PatchCodec: encoding (src/main.go:336-386) -/

/-- Big-endian bytes of a `uint32`, as written by
`binary.Write(w, binary.BigEndian, v)`; values `≥ 2^32` are truncated
digit-wise exactly as the Go `uint32` cast would truncate them. -/
def toBE (v : Nat) : List Nat :=
  [v / 16777216 % 256, v / 65536 % 256, v / 256 % 256, v % 256]

/-- The per-item writes of the loop at src/main.go:371-383: offset,
`uint32(len(content))`, then the content bytes. -/
def writeItems : List PatchItem → List Nat
  | [] => []
  | item :: rest =>
    toBE item.Offset ++ toBE item.Content.length ++ item.Content ++ writeItems rest

/-- src/main.go:336-386, as the byte sequence it sends to the writer. -/
def writePatchFile (patch : PatchFile) : List Nat :=
  IDENTIFIER ++ [VERSION_MAJOR, VERSION_MINOR] ++
    toBE patch.OriginalLength ++ patch.OriginalChecksum ++
    toBE patch.PatchedLength ++ patch.PatchedChecksum ++
    toBE patch.PatchItems.length ++ writeItems patch.PatchItems

/-! ## PatchCodec: decoding (src/main.go:456-525 and 527-594) -/

/-- One call to `io.Reader.Read(p)` with `len(p) = n` on a chunked source:
bytes come from the front chunk only, so fewer than `n` bytes may be
returned with success; an exhausted source yields `io.EOF`, which the
decoders propagate (modelled as `truncatedData`). -/
def rdRead (n : Nat) : List (List Nat) → Except Err (List Nat × List (List Nat))
  | [] => .error .truncatedData
  | c :: rest =>
    let got := c.take n
    let rem := c.drop n
    .ok (got, if rem.isEmpty then rest else rem :: rest)

/-- `io.ReadFull` (also used inside `binary.Read`): keeps pulling chunks
until exactly `n` bytes are obtained, failing if the source ends first. -/
def rdFull (n : Nat) : List (List Nat) → Except Err (List Nat × List (List Nat))
  | [] => if n = 0 then .ok ([], []) else .error .truncatedData
  | c :: rest =>
    if n ≤ c.length then
      let rem := c.drop n
      .ok (c.take n, if rem.isEmpty then rest else rem :: rest)
    else
      match rdFull (n - c.length) rest with
      | .error e => .error e
      | .ok (more, s) => .ok (c ++ more, s)

/-- A `make([]byte, n)` buffer after a possibly-short `Read` filled its
prefix: the bytes obtained followed by the zeroes the buffer was
initialised with. -/
def padTo (n : Nat) (got : List Nat) : List Nat :=
  got ++ List.replicate (n - got.length) 0

/-- Big-endian `uint32` from its 4 bytes, as assembled by `binary.Read`. -/
def fromBE (b : List Nat) : Nat :=
  b.foldl (fun acc x => acc * 256 + x) 0

/-- The item loop of `readPatchFile` (src/main.go:502-522): offset and
content length via `binary.Read` (full reads), content via a bare
`reader.Read` into a zeroed buffer (a short read is accepted). -/
def readItemsV1 (count : Nat) (s : List (List Nat)) :
    Except Err (List PatchItem × List (List Nat)) :=
  match count with
  | 0 => .ok ([], s)
  | c + 1 =>
    match rdFull 4 s with
    | .error e => .error e
    | .ok (ob, s1) =>
      match rdFull 4 s1 with
      | .error e => .error e
      | .ok (lb, s2) =>
        let length := fromBE lb
        match rdRead length s2 with
        | .error e => .error e
        | .ok (got, s3) =>
          match readItemsV1 c s3 with
          | .error e => .error e
          | .ok (items, s4) =>
            .ok ({ Offset := fromBE ob, Content := padTo length got } :: items, s4)

/-- src/main.go:456-525.  Magic, version, the two checksums and each item's
content are read with bare `reader.Read` calls (short reads accepted and
zero-padded by the pre-zeroed buffers); the `uint32` fields go through
`binary.Read`, which reads fully. -/
def readPatchFile (s : List (List Nat)) : Except Err PatchFile :=
  match rdRead 8 s with
  | .error e => .error e
  | .ok (m, s1) =>
    if padTo 8 m ≠ IDENTIFIER then .error .malformedFormat
    else
      match rdRead 2 s1 with
      | .error e => .error e
      | .ok (v, s2) =>
        let version := padTo 2 v
        if version.getD 0 0 ≠ VERSION_MAJOR ∨ version.getD 1 0 ≠ VERSION_MINOR then
          .error .unsupportedVersion
        else
          match rdFull 4 s2 with
          | .error e => .error e
          | .ok (olb, s3) =>
            match rdRead 32 s3 with
            | .error e => .error e
            | .ok (oc, s4) =>
              match rdFull 4 s4 with
              | .error e => .error e
              | .ok (plb, s5) =>
                match rdRead 32 s5 with
                | .error e => .error e
                | .ok (pc, s6) =>
                  match rdFull 4 s6 with
                  | .error e => .error e
                  | .ok (cb, s7) =>
                    match readItemsV1 (fromBE cb) s7 with
                    | .error e => .error e
                    | .ok (items, _) =>
                      .ok { OriginalLength := fromBE olb
                            OriginalChecksum := padTo 32 oc
                            PatchedLength := fromBE plb
                            PatchedChecksum := padTo 32 pc
                            PatchItems := items }

/-- The item loop of `readPatchFilev2` (src/main.go:573-591): every read,
content included, goes through `io.ReadFull`. -/
def readItemsV2 (count : Nat) (s : List (List Nat)) :
    Except Err (List PatchItem × List (List Nat)) :=
  match count with
  | 0 => .ok ([], s)
  | c + 1 =>
    match rdFull 4 s with
    | .error e => .error e
    | .ok (ob, s1) =>
      match rdFull 4 s1 with
      | .error e => .error e
      | .ok (lb, s2) =>
        match rdFull (fromBE lb) s2 with
        | .error e => .error e
        | .ok (content, s3) =>
          match readItemsV2 c s3 with
          | .error e => .error e
          | .ok (items, s4) =>
            .ok ({ Offset := fromBE ob, Content := content } :: items, s4)

/-- src/main.go:527-594: identical to `readPatchFile` except that every
multi-byte read uses `io.ReadFull`, so a short read can never be accepted. -/
def readPatchFilev2 (s : List (List Nat)) : Except Err PatchFile :=
  match rdFull 8 s with
  | .error e => .error e
  | .ok (m, s1) =>
    if m ≠ IDENTIFIER then .error .malformedFormat
    else
      match rdFull 2 s1 with
      | .error e => .error e
      | .ok (v, s2) =>
        if v.getD 0 0 ≠ VERSION_MAJOR ∨ v.getD 1 0 ≠ VERSION_MINOR then
          .error .unsupportedVersion
        else
          match rdFull 4 s2 with
          | .error e => .error e
          | .ok (olb, s3) =>
            match rdFull 32 s3 with
            | .error e => .error e
            | .ok (oc, s4) =>
              match rdFull 4 s4 with
              | .error e => .error e
              | .ok (plb, s5) =>
                match rdFull 32 s5 with
                | .error e => .error e
                | .ok (pc, s6) =>
                  match rdFull 4 s6 with
                  | .error e => .error e
                  | .ok (cb, s7) =>
                    match readItemsV2 (fromBE cb) s7 with
                    | .error e => .error e
                    | .ok (items, _) =>
                      .ok { OriginalLength := fromBE olb
                            OriginalChecksum := oc
                            PatchedLength := fromBE plb
                            PatchedChecksum := pc
                            PatchItems := items }

/-! ## PatchApplier: applyPatch (src/main.go:606-646) -/

/-- `copy(modified[off:], content)`: overwrites
`min (buf.length - off) content.length` bytes starting at `off`. -/
def writeAt (off : Nat) (content buf : List Nat) : List Nat :=
  let n := min (buf.length - off) content.length
  buf.take off ++ content.take n ++ buf.drop (off + n)

/-- The body of the apply loop (src/main.go:626-634) for one item:
`num := int(item.Offset + uint32(len(item.Content)))` is computed in
`uint32` arithmetic (hence the `% 2^32`), the buffer is zero-extended when
`num` exceeds its length, and `copy(modified[item.Offset:], item.Content)`
panics (modelled as `boundsViolation`) when the offset exceeds the buffer
length. -/
def applyStep (item : PatchItem) (buf : List Nat) : Except Err (List Nat) :=
  let num := (item.Offset + item.Content.length % U32) % U32
  let buf1 := if num > buf.length then buf ++ List.replicate (num - buf.length) 0 else buf
  if item.Offset > buf1.length then .error .boundsViolation
  else .ok (writeAt item.Offset item.Content buf1)

/-- The apply loop over all items, in stored order. -/
def applyLoop : List PatchItem → List Nat → Except Err (List Nat)
  | [], buf => .ok buf
  | item :: rest, buf =>
    match applyStep item buf with
    | .error e => .error e
    | .ok buf1 => applyLoop rest buf1

/-- The base buffer of src/main.go:618-623: `make([]byte, patchedLength)`
filled with the first `min (original.length) patchedLength` bytes of the
original and zeroes beyond. -/
def applyBase (original : List Nat) (patchedLength : Nat) : List Nat :=
  original.take patchedLength ++ List.replicate (patchedLength - original.length) 0

/-- src/main.go:606-646. -/
def applyPatch (original : List Nat) (patch : PatchFile) : Except Err (List Nat) :=
  if original.length % U32 ≠ patch.OriginalLength then
    .error .originalLengthMismatch
  else if sha256 original ≠ patch.OriginalChecksum then
    .error .originalChecksumMismatch
  else
    match applyLoop patch.PatchItems (applyBase original patch.PatchedLength) with
    | .error e => .error e
    | .ok modified =>
      if modified.length % U32 ≠ patch.PatchedLength then
        .error .patchedLengthMismatch
      else if sha256 modified ≠ patch.PatchedChecksum then
        .error .patchedChecksumMismatch
      else
        .ok modified

/-! ## Basic facts about the model -/

theorem sha256_injective {a b : List Nat} (h : sha256 a = sha256 b) : a = b := by
  have key : ∀ a b : List Nat,
      a.foldr (fun x r => Nat.pair (x + 1) r) 0 =
        b.foldr (fun x r => Nat.pair (x + 1) r) 0 → a = b := by
    intro a
    induction a with
    | nil =>
      intro b hb
      cases b with
      | nil => rfl
      | cons y ys =>
        exfalso
        simp only [List.foldr] at hb
        have := Nat.left_le_pair (y + 1) (ys.foldr (fun x r => Nat.pair (x + 1) r) 0)
        omega
    | cons x xs ih =>
      intro b hb
      cases b with
      | nil =>
        exfalso
        simp only [List.foldr] at hb
        have := Nat.left_le_pair (x + 1) (xs.foldr (fun x r => Nat.pair (x + 1) r) 0)
        omega
      | cons y ys =>
        simp only [List.foldr] at hb
        rcases Nat.pair_eq_pair.mp hb with ⟨h1, h2⟩
        obtain rfl := ih ys h2
        obtain rfl : x = y := by omega
        rfl
  simp only [sha256, List.cons.injEq] at h
  exact key a b h.1

theorem sha256_length (b : List Nat) : (sha256 b).length = 32 := by
  simp [sha256]

theorem applyBase_length (original : List Nat) (pl : Nat) :
    (applyBase original pl).length = pl := by
  simp only [applyBase, List.length_append, List.length_take, List.length_replicate]
  omega

theorem writeAt_length (off : Nat) (content buf : List Nat) (h : off ≤ buf.length) :
    (writeAt off content buf).length = buf.length := by
  simp only [writeAt, List.length_append, List.length_take, List.length_drop]
  omega

/-- When the whole content fits (`off + content.length ≤ buf.length`), the
copy overwrites exactly `[off, off + content.length)`. -/
theorem writeAt_full (off : Nat) (content buf : List Nat)
    (h : off + content.length ≤ buf.length) :
    writeAt off content buf = buf.take off ++ content ++ buf.drop (off + content.length) := by
  have hn : min (buf.length - off) content.length = content.length := by omega
  simp [writeAt, hn]

/-! ## C9: defensive growth in the apply loop -/

/-- For a patch item whose true sum `offset + len(content)` does not wrap
around `2^32`, the apply-loop body grows the buffer (zero-filled) to that
sum whenever it exceeds the current length, and the subsequent write is in
bounds. -/
theorem applyStep_growth_spec (item : PatchItem) (buf : List Nat)
    (h : item.Offset + item.Content.length < U32) :
    applyStep item buf =
      .ok (writeAt item.Offset item.Content
        (if item.Offset + item.Content.length > buf.length
          then buf ++ List.replicate (item.Offset + item.Content.length - buf.length) 0
          else buf)) ∧
    item.Offset + item.Content.length ≤
      (if item.Offset + item.Content.length > buf.length
        then buf ++ List.replicate (item.Offset + item.Content.length - buf.length) 0
        else buf).length := by
  have hnum : (item.Offset + item.Content.length % U32) % U32 =
      item.Offset + item.Content.length := by
    have h1 : item.Content.length % U32 = item.Content.length :=
      Nat.mod_eq_of_lt (by omega)
    rw [h1, Nat.mod_eq_of_lt h]
  by_cases hg : item.Offset + item.Content.length > buf.length
  · have hlen : (buf ++ List.replicate (item.Offset + item.Content.length - buf.length) 0).length
        = item.Offset + item.Content.length := by
      simp only [List.length_append, List.length_replicate]; omega
    refine ⟨?_, by rw [if_pos hg, hlen]⟩
    simp only [applyStep, hnum, if_pos hg]
    rw [if_neg (by rw [hlen]; omega)]
  · refine ⟨?_, by rw [if_neg hg]; omega⟩
    simp only [applyStep, hnum, if_neg hg]
    rw [if_neg (by omega)]

/-- C9 (amended): for a patch item whose true sum `offset + len(content)` does
not wrap around `2^32`, the apply-loop body grows the buffer (zero-filled)
to that sum whenever it exceeds the current length, and the subsequent
write is in bounds: the step never aborts and the written region
`[offset, offset + len(content))` lies inside the (possibly grown) buffer. -/
theorem c9_defensive_growth (item : PatchItem) (buf : List Nat)
    (h : item.Offset + item.Content.length < U32) :
    applyStep item buf =
      .ok (writeAt item.Offset item.Content
        (if item.Offset + item.Content.length > buf.length
          then buf ++ List.replicate (item.Offset + item.Content.length - buf.length) 0
          else buf)) ∧
    item.Offset + item.Content.length ≤
      (if item.Offset + item.Content.length > buf.length
        then buf ++ List.replicate (item.Offset + item.Content.length - buf.length) 0
        else buf).length :=
  applyStep_growth_spec item buf h

/-- Closed witness for `c9_defensive_growth` at a concrete item and buffer. -/
theorem c9_witness :
    applyStep { Offset := 1, Content := [5] } [1, 2] =
      .ok (writeAt 1 [5]
        (if 1 + 1 > 2 then [1, 2] ++ List.replicate (1 + 1 - 2) 0 else [1, 2])) ∧
    1 + 1 ≤ (if 1 + 1 > 2 then [1, 2] ++ List.replicate (1 + 1 - 2) 0 else [1, 2]).length :=
  c9_defensive_growth { Offset := 1, Content := [5] } [1, 2] (by decide)

/-- C9 fails as stated: when `offset + len(content)` wraps around `2^32`,
the buffer is not grown to that sum even though it exceeds the buffer
length, and the write is not brought in bounds — the slice expression
aborts (a Go runtime panic) instead. -/
theorem c9_counterexample :
    (4294967295 : Nat) + 2 > 1 ∧
    applyPatch [1]
      { OriginalLength := 1, OriginalChecksum := sha256 [1],
        PatchedLength := 1, PatchedChecksum := sha256 [1],
        PatchItems := [{ Offset := 4294967295, Content := [9, 9] }] } =
      .error .boundsViolation := by decide

/-! ## C10: items that exceed the declared patched length -/

theorem applyStep_ok_of_nowrap (item : PatchItem) (buf : List Nat)
    (h : item.Offset + item.Content.length < U32) :
    ∃ buf1, applyStep item buf = .ok buf1 ∧
      buf1.length = max buf.length (item.Offset + item.Content.length) := by
  obtain ⟨hstep, hle⟩ := applyStep_growth_spec item buf h
  refine ⟨_, hstep, ?_⟩
  by_cases hg : item.Offset + item.Content.length > buf.length
  · rw [if_pos hg] at hle ⊢
    rw [writeAt_length _ _ _ (by omega)]
    simp only [List.length_append, List.length_replicate]
    omega
  · rw [if_neg hg] at hle ⊢
    rw [writeAt_length _ _ _ (by omega)]
    omega

theorem applyLoop_nowrap (items : List PatchItem) :
    ∀ buf : List Nat, buf.length < U32 →
      (∀ it ∈ items, it.Offset + it.Content.length < U32) →
      ∃ out, applyLoop items buf = .ok out ∧ out.length < U32 ∧
        buf.length ≤ out.length ∧
        ∀ it ∈ items, it.Offset + it.Content.length ≤ out.length := by
  induction items with
  | nil =>
    intro buf hb _
    exact ⟨buf, rfl, hb, Nat.le_refl _, by simp⟩
  | cons item rest ih =>
    intro buf hb hw
    have hitem := hw item (List.mem_cons_self item rest)
    obtain ⟨buf1, hstep, hlen1⟩ := applyStep_ok_of_nowrap item buf hitem
    have hb1 : buf1.length < U32 := by omega
    obtain ⟨out, hloop, ho1, ho2, ho3⟩ :=
      ih buf1 hb1 (fun it hit => hw it (List.mem_cons_of_mem _ hit))
    refine ⟨out, ?_, ho1, by omega, ?_⟩
    · simp only [applyLoop, hstep, hloop]
    · intro it hit
      rcases List.mem_cons.mp hit with h | h
      · subst h; omega
      · exact ho3 it h

/-- C10 (amended): for a PatchSet that passes the original-length and
original-checksum checks and whose items do not wrap around `2^32`
(`offset + len(content) < 2^32` for every item, as any item within the
declared wire-format domain satisfies), if some item has
`offset + len(content) > patchedLength` then the defensive growth makes the
final buffer longer than `patchedLength`, and `applyPatch` fails with
`patchedLengthMismatch` — no buffer is returned. -/
theorem c10_oversized_item (original : List Nat) (P : PatchFile)
    (hpl : P.PatchedLength < U32)
    (h1 : original.length % U32 = P.OriginalLength)
    (h2 : sha256 original = P.OriginalChecksum)
    (hw : ∀ it ∈ P.PatchItems, it.Offset + it.Content.length < U32)
    (hover : ∃ it ∈ P.PatchItems, P.PatchedLength < it.Offset + it.Content.length) :
    applyPatch original P = .error .patchedLengthMismatch := by
  have hbase : (applyBase original P.PatchedLength).length = P.PatchedLength :=
    applyBase_length original P.PatchedLength
  obtain ⟨out, hloop, ho1, ho2, ho3⟩ :=
    applyLoop_nowrap P.PatchItems (applyBase original P.PatchedLength)
      (by rw [hbase]; exact hpl) hw
  obtain ⟨it, hit, hsum⟩ := hover
  have hgt : P.PatchedLength < out.length := Nat.lt_of_lt_of_le hsum (ho3 it hit)
  have hne : out.length % U32 ≠ P.PatchedLength := by
    rw [Nat.mod_eq_of_lt ho1]; omega
  simp only [applyPatch, h1, h2, hloop]
  simp [hne]

/-- Closed witness for `c10_oversized_item`. -/
theorem c10_witness :
    applyPatch [1]
      { OriginalLength := 1, OriginalChecksum := sha256 [1],
        PatchedLength := 1, PatchedChecksum := sha256 [1],
        PatchItems := [{ Offset := 0, Content := [7, 7] }] } =
      .error .patchedLengthMismatch :=
  c10_oversized_item [1] _ (by decide) (by decide) (by decide) (by decide)
    ⟨{ Offset := 0, Content := [7, 7] }, by decide, by decide⟩

/-! ## C7: tamper detection in applyPatch -/

/-- C7 (amended): if the stored original length matches, a stored original
checksum different from the digest of the supplied original makes
`applyPatch` fail with `originalChecksumMismatch`; and if the original
checks pass, the loop completes, and the final length check passes, a
stored patched checksum different from the digest of the reconstructed
buffer makes `applyPatch` fail with `patchedChecksumMismatch`.  In neither
case is a buffer returned. -/
theorem c7_tamper_detection :
    (∀ (original : List Nat) (P : PatchFile),
      original.length % U32 = P.OriginalLength →
      sha256 original ≠ P.OriginalChecksum →
      applyPatch original P = .error .originalChecksumMismatch) ∧
    (∀ (original : List Nat) (P : PatchFile) (buf : List Nat),
      original.length % U32 = P.OriginalLength →
      sha256 original = P.OriginalChecksum →
      applyLoop P.PatchItems (applyBase original P.PatchedLength) = .ok buf →
      buf.length % U32 = P.PatchedLength →
      sha256 buf ≠ P.PatchedChecksum →
      applyPatch original P = .error .patchedChecksumMismatch) := by
  constructor
  · intro original P h1 h2
    simp only [applyPatch]
    rw [if_neg (by simp [h1]), if_pos h2]
  · intro original P buf h1 h2 h3 h4 h5
    simp only [applyPatch, h3]
    rw [if_neg (by simp [h1]), if_neg (by simp [h2]), if_neg (by simp [h4]), if_pos h5]

/-- Closed witness for `c7_tamper_detection` at concrete inputs. -/
theorem c7_witness :
    applyPatch [1]
      { OriginalLength := 1, OriginalChecksum := [0], PatchedLength := 1,
        PatchedChecksum := [9], PatchItems := [] } =
      .error .originalChecksumMismatch ∧
    applyPatch [1]
      { OriginalLength := 1, OriginalChecksum := sha256 [1], PatchedLength := 1,
        PatchedChecksum := [9], PatchItems := [] } =
      .error .patchedChecksumMismatch :=
  ⟨c7_tamper_detection.1 [1] _ (by decide) (by decide),
   c7_tamper_detection.2 [1] _ [1] (by decide) (by decide) (by decide) (by decide)
     (by decide)⟩

/-- C7 fails as stated: when the stored original length also disagrees, the
length check runs first and `applyPatch` fails with
`originalLengthMismatch`, not `originalChecksumMismatch` — so a differing
stored original checksum alone does not determine the error kind. -/
theorem c7_counterexample :
    sha256 [1] ≠ ([] : List Nat) ∧
    applyPatch [1]
      { OriginalLength := 0, OriginalChecksum := [], PatchedLength := 0,
        PatchedChecksum := [], PatchItems := [] } =
      .error .originalLengthMismatch ∧
    Err.originalLengthMismatch ≠ Err.originalChecksumMismatch := by
  refine ⟨by simp [sha256], by decide, by decide⟩

/-- Helper for the C10 counterexample: with an item whose content has the
(huge) length `2^32 - 2` and starts with two 9s, the wrapped `num` is `1`,
no growth happens, the copy truncates to 2 bytes, and every later check
passes. -/
theorem applyPatch_wrapped_item_ok (C : List Nat)
    (hlen : C.length = U32 - 2) (htake : C.take 2 = [9, 9]) :
    applyPatch [1, 2, 3, 4, 5]
      { OriginalLength := 5, OriginalChecksum := sha256 [1, 2, 3, 4, 5],
        PatchedLength := 5, PatchedChecksum := sha256 [1, 2, 3, 9, 9],
        PatchItems := [{ Offset := 3, Content := C }] } =
      .ok [1, 2, 3, 9, 9] := by
  have hU : U32 = 4294967296 := rfl
  have h2 : (2 : Nat) ≤ U32 - 2 := by rw [hU]; norm_num
  have hstep : applyStep { Offset := 3, Content := C } [1, 2, 3, 4, 5] =
      .ok [1, 2, 3, 9, 9] := by
    have hnum : ((3 : Nat) + C.length % U32) % U32 = 1 := by rw [hlen, hU]
    simp only [applyStep, hnum]
    rw [if_neg (by norm_num)]
    rw [if_neg (by norm_num)]
    have hm2 : min ([1, 2, 3, 4, 5].length - 3) C.length = 2 := by
      rw [hlen]
      simp only [List.length_cons, List.length_nil]
      exact min_eq_left h2
    simp only [writeAt, hm2, htake]
    rfl
  have hbase : applyBase [1, 2, 3, 4, 5] 5 = [1, 2, 3, 4, 5] := by
    simp [applyBase]
  simp only [applyPatch, hbase]
  rw [if_neg (by simp [hU])]
  rw [if_neg (by simp)]
  simp only [applyLoop, hstep]
  rw [if_neg (by simp [hU])]
  rw [if_neg (by simp)]

/-- C10 fails as stated: an item whose true sum `offset + len(content)`
exceeds `patchedLength` but wraps around `2^32` triggers no growth, its
write is silently truncated at the buffer end, and `applyPatch` returns a
buffer — it does not fail with `patchedLengthMismatch`. -/
theorem c10_counterexample :
    (5 : Nat) < 3 + (List.replicate (U32 - 2) 9 : List Nat).length ∧
    applyPatch [1, 2, 3, 4, 5]
      { OriginalLength := 5, OriginalChecksum := sha256 [1, 2, 3, 4, 5],
        PatchedLength := 5, PatchedChecksum := sha256 [1, 2, 3, 9, 9],
        PatchItems := [{ Offset := 3, Content := List.replicate (U32 - 2) 9 }] } =
      .ok [1, 2, 3, 9, 9] := by
  constructor
  · rw [List.length_replicate]
    have hU : U32 = 4294967296 := rfl
    omega
  · exact applyPatch_wrapped_item_ok (List.replicate (U32 - 2) 9)
      (List.length_replicate ..)
      (by
        rw [List.take_replicate, min_eq_left]
        · rfl
        · have hU : U32 = 4294967296 := rfl
          omega)

/-! ## C3 and C6: short reads during decode (readPatchFile) -/

/-- C3 fails in `readPatchFile` (the claim itself states the intended
full-read semantics, which `readPatchFilev2` implements): when the item
content arrives in a chunk shorter than the declared content length, the
bare `reader.Read` call accepts the short read and the zero-initialised
tail of the buffer silently becomes patch content; `readPatchFilev2`
correctly fails with a truncation error on the same source. -/
theorem c3_short_read_accepted :
    readPatchFile [IDENTIFIER ++ [1, 0] ++ toBE 1 ++ List.replicate 32 0 ++
        toBE 1 ++ List.replicate 32 0 ++ toBE 1 ++ toBE 0 ++ toBE 2, [9]] =
      .ok { OriginalLength := 1, OriginalChecksum := List.replicate 32 0,
            PatchedLength := 1, PatchedChecksum := List.replicate 32 0,
            PatchItems := [{ Offset := 0, Content := [9, 0] }] } ∧
    readPatchFilev2 [IDENTIFIER ++ [1, 0] ++ toBE 1 ++ List.replicate 32 0 ++
        toBE 1 ++ List.replicate 32 0 ++ toBE 1 ++ toBE 0 ++ toBE 2, [9]] =
      .error .truncatedData := by decide

/-- C6 fails in `readPatchFile`: when only the first version byte arrives in
the current chunk, the bare `reader.Read` accepts the short read and the
zeroed second buffer byte masquerades as minor version `0x00`, so a source
whose actual version bytes are `0x01,0x07` decodes successfully instead of
failing with `unsupportedVersion`; `readPatchFilev2` rejects the same
source. -/
theorem c6_version_short_read_accepted :
    ((IDENTIFIER ++ [1]) ++ ([7] ++ toBE 1 ++ List.replicate 32 0 ++
        toBE 1 ++ List.replicate 32 0 ++ toBE 0)).getD 8 0 = 1 ∧
    ((IDENTIFIER ++ [1]) ++ ([7] ++ toBE 1 ++ List.replicate 32 0 ++
        toBE 1 ++ List.replicate 32 0 ++ toBE 0)).getD 9 0 = 7 ∧
    (7 : Nat) ≠ VERSION_MINOR ∧
    readPatchFile [IDENTIFIER ++ [1], [7] ++ toBE 1 ++ List.replicate 32 0 ++
        toBE 1 ++ List.replicate 32 0 ++ toBE 0] =
      .ok { OriginalLength := 117440512,
            OriginalChecksum := 1 :: List.replicate 31 0,
            PatchedLength := 0,
            PatchedChecksum := 1 :: List.replicate 31 0,
            PatchItems := [] } ∧
    readPatchFilev2 [IDENTIFIER ++ [1], [7] ++ toBE 1 ++ List.replicate 32 0 ++
        toBE 1 ++ List.replicate 32 0 ++ toBE 0] =
      .error .unsupportedVersion := by decide

/-! ## The scan loop: unfolding and structure lemmas -/

theorem generateLoop_mismatch (A B : List Nat) (f i : Nat) (cd : List Nat) (ds : Nat)
    (h : A.getD i 0 ≠ B.getD i 0) :
    generateLoop A B (f + 1) i cd ds =
      generateLoop A B f (i + 1) (cd ++ [B.getD i 0])
        (if cd.length = 0 then i else ds) := by
  simp only [generateLoop, ne_eq, if_pos h]

theorem generateLoop_match_close (A B : List Nat) (f i : Nat) (cd : List Nat) (ds : Nat)
    (h : A.getD i 0 = B.getD i 0) (hcd : cd ≠ []) :
    generateLoop A B (f + 1) i cd ds =
      { Offset := ds % U32, Content := cd } :: generateLoop A B f (i + 1) [] ds := by
  have hlen : cd.length > 0 := List.length_pos.mpr hcd
  simp only [generateLoop, ne_eq, h, not_true_eq_false, if_false, if_pos hlen]

theorem generateLoop_match_skip (A B : List Nat) (f i : Nat) (ds : Nat)
    (h : A.getD i 0 = B.getD i 0) :
    generateLoop A B (f + 1) i [] ds = generateLoop A B f (i + 1) [] ds := by
  simp only [generateLoop, ne_eq, h, not_true_eq_false, if_false,
    List.length_nil, gt_iff_lt, Nat.lt_irrefl, if_false]

theorem generateLoop_flush (A B : List Nat) (i : Nat) (cd : List Nat) (ds : Nat) :
    generateLoop A B 0 i cd ds =
      if cd.length > 0 then [{ Offset := ds % U32, Content := cd }] else [] := rfl

/-- Scanning a region where the two buffers agree, with no open run, emits
nothing and just advances the index. -/
theorem generateLoop_agree (A B : List Nat) :
    ∀ (k f i ds : Nat), (∀ j, i ≤ j → j < i + k → A.getD j 0 = B.getD j 0) →
      generateLoop A B (k + f) i [] ds = generateLoop A B f (i + k) [] ds := by
  intro k
  induction k with
  | zero => intro f i ds _; rw [Nat.zero_add, Nat.add_zero]
  | succ n ih =>
    intro f i ds hagree
    have hstep : A.getD i 0 = B.getD i 0 := hagree i (Nat.le_refl i) (by omega)
    have heq : n + 1 + f = (n + f) + 1 := by omega
    rw [heq, generateLoop_match_skip A B (n + f) i ds hstep]
    have := ih f (i + 1) ds (fun j h1 h2 => hagree j (by omega) (by omega))
    rw [this]
    congr 1
    omega

/-- Structure of the items emitted by the scan loop: contents are non-empty,
offsets start at the given lower bound (the current run start / scan
position), each item stays inside the scanned range, and offsets are
strictly increasing. -/
theorem generateLoop_items_spec (A B : List Nat) :
    ∀ (fuel i : Nat) (cd : List Nat) (ds lb : Nat),
      ds ≤ i → (cd ≠ [] → ds + cd.length = i) → i + fuel < U32 →
      (cd = [] → lb ≤ i) → (cd ≠ [] → lb ≤ ds) →
      (∀ it ∈ generateLoop A B fuel i cd ds,
          it.Content ≠ [] ∧ lb ≤ it.Offset ∧
          it.Offset + it.Content.length ≤ i + fuel) ∧
      (generateLoop A B fuel i cd ds).Pairwise (fun a b => a.Offset < b.Offset) := by
  intro fuel
  induction fuel with
  | zero =>
    intro i cd ds lb hds hcd hU hlb1 hlb2
    rw [generateLoop_flush]
    by_cases h : cd.length > 0
    · have hne : cd ≠ [] := fun hx => by simp [hx] at h
      have hsum := hcd hne
      have hmod : ds % U32 = ds := Nat.mod_eq_of_lt (by omega)
      rw [if_pos h]
      refine ⟨?_, List.pairwise_singleton _ _⟩
      intro it hit
      rw [List.mem_singleton] at hit
      subst hit
      refine ⟨hne, ?_, ?_⟩
      · show lb ≤ ds % U32
        rw [hmod]; exact hlb2 hne
      · show ds % U32 + cd.length ≤ i + 0
        rw [hmod]; omega
    · rw [if_neg h]
      exact ⟨by simp, List.Pairwise.nil⟩
  | succ f ih =>
    intro i cd ds lb hds hcd hU hlb1 hlb2
    by_cases hmis : A.getD i 0 ≠ B.getD i 0
    · rw [generateLoop_mismatch A B f i cd ds hmis]
      by_cases h0 : cd.length = 0
      · have hnil : cd = [] := List.length_eq_zero.mp h0
        rw [if_pos h0]
        obtain ⟨H1, H2⟩ := ih (i + 1) (cd ++ [B.getD i 0]) i lb (by omega)
          (fun _ => by simp [hnil]) (by omega)
          (fun hx => by simp at hx)
          (fun _ => hlb1 hnil)
        refine ⟨?_, H2⟩
        intro it hit
        obtain ⟨a, b, c⟩ := H1 it hit
        exact ⟨a, b, by omega⟩
      · rw [if_neg h0]
        have hne : cd ≠ [] := fun hx => h0 (by simp [hx])
        have hsum := hcd hne
        obtain ⟨H1, H2⟩ := ih (i + 1) (cd ++ [B.getD i 0]) ds lb (by omega)
          (fun _ => by simp only [List.length_append, List.length_singleton]; omega)
          (by omega)
          (fun hx => by simp at hx)
          (fun _ => hlb2 hne)
        refine ⟨?_, H2⟩
        intro it hit
        obtain ⟨a, b, c⟩ := H1 it hit
        exact ⟨a, b, by omega⟩
    · push_neg at hmis
      by_cases h0 : cd = []
      · subst h0
        rw [generateLoop_match_skip A B f i ds hmis]
        obtain ⟨H1, H2⟩ := ih (i + 1) [] ds lb (by omega)
          (fun hx => absurd rfl hx) (by omega)
          (fun _ => by have := hlb1 rfl; omega)
          (fun hx => absurd rfl hx)
        refine ⟨?_, H2⟩
        intro it hit
        obtain ⟨a, b, c⟩ := H1 it hit
        exact ⟨a, b, by omega⟩
      · rw [generateLoop_match_close A B f i cd ds hmis h0]
        have hsum := hcd h0
        have hpos : 0 < cd.length := List.length_pos.mpr h0
        have hmod : ds % U32 = ds := Nat.mod_eq_of_lt (by omega)
        obtain ⟨H1, H2⟩ := ih (i + 1) [] ds (i + 1) (by omega)
          (fun hx => absurd rfl hx) (by omega)
          (fun _ => Nat.le_refl _)
          (fun hx => absurd rfl hx)
        constructor
        · intro it hit
          rcases List.mem_cons.mp hit with rfl | hmem
          · refine ⟨h0, ?_, ?_⟩
            · show lb ≤ ds % U32
              rw [hmod]; exact hlb2 h0
            · show ds % U32 + cd.length ≤ i + (f + 1)
              rw [hmod]; omega
          · obtain ⟨a, b, c⟩ := H1 it hmem
            have hlb := hlb2 h0
            exact ⟨a, by omega, by omega⟩
        · rw [List.pairwise_cons]
          refine ⟨?_, H2⟩
          intro b hb
          obtain ⟨a, hlbb, c⟩ := H1 b hb
          show ds % U32 < b.Offset
          rw [hmod]; omega

/-! ## Correctness of applying the scanned items -/

/-- Extending the rewritten segment across a position where `base` already
agrees with `B`. -/
theorem seg_extend (B base : List Nat) (i : Nat) (hi : i < B.length)
    (hib : i < base.length) (h : base.getD i 0 = B.getD i 0) :
    B.take i ++ base.drop i = B.take (i + 1) ++ base.drop (i + 1) := by
  have h1 : base[i] = B[i] := by
    have e1 : base.getD i 0 = base[i] := by
      simp [List.getD, List.getElem?_eq_getElem hib]
    have e2 : B.getD i 0 = B[i] := by
      simp [List.getD, List.getElem?_eq_getElem hi]
    rw [← e1, ← e2, h]
  have h2 : List.take (i + 1) B = List.take i B ++ [B[i]] := by
    rw [List.take_succ, List.getElem?_eq_getElem hi]
    rfl
  have h3 : List.drop i base = base[i] :: List.drop (i + 1) base :=
    List.drop_eq_getElem_cons hib
  rw [h2, h3, h1, List.append_assoc, List.singleton_append]

/-- Growing the open run by the byte at the scan position. -/
theorem run_extend (B : List Nat) (ds i : Nat) (hds : ds ≤ i) (hi : i < B.length) :
    (B.drop ds).take (i - ds) ++ [B.getD i 0] = (B.drop ds).take (i + 1 - ds) := by
  have h1 : i + 1 - ds = (i - ds) + 1 := by omega
  rw [h1, List.take_succ, List.getElem?_drop]
  have h2 : ds + (i - ds) = i := by omega
  rw [h2, List.getElem?_eq_getElem hi]
  simp [List.getD, List.getElem?_eq_getElem hi]

/-- Applying the item that closes the run `[ds, i)` rewrites exactly that
segment of the buffer with `B`'s bytes. -/
theorem applyStep_close (B base : List Nat) (ds i : Nat)
    (hds : ds ≤ i) (hi : i ≤ B.length) (hBU : B.length < U32)
    (hblen : base.length = B.length) :
    applyStep { Offset := ds % U32, Content := (B.drop ds).take (i - ds) }
        (B.take ds ++ base.drop ds) =
      .ok (B.take i ++ base.drop i) := by
  have hmod : ds % U32 = ds := Nat.mod_eq_of_lt (by omega)
  have hclen : ((B.drop ds).take (i - ds)).length = i - ds := by
    rw [List.length_take, List.length_drop]; omega
  have hbuflen : (B.take ds ++ base.drop ds).length = B.length := by
    rw [List.length_append, List.length_take, List.length_drop, hblen]; omega
  have hnum : (ds % U32 + ((B.drop ds).take (i - ds)).length % U32) % U32 = i := by
    rw [hmod, hclen, Nat.mod_eq_of_lt (show i - ds < U32 by omega)]
    have h2 : ds + (i - ds) = i := by omega
    rw [h2]
    exact Nat.mod_eq_of_lt (by omega)
  simp only [applyStep, hnum]
  rw [if_neg (show ¬ i > (List.take ds B ++ List.drop ds base).length by
    rw [hbuflen]; omega)]
  rw [if_neg (show ¬ ds % U32 > (List.take ds B ++ List.drop ds base).length by
    rw [hmod, hbuflen]; omega)]
  rw [hmod, writeAt_full _ _ _ (by rw [hclen, hbuflen]; omega)]
  have htk : (B.take ds ++ base.drop ds).take ds = B.take ds := by
    apply List.take_left'
    rw [List.length_take]; omega
  have hdp : (B.take ds ++ base.drop ds).drop (ds + ((B.drop ds).take (i - ds)).length)
      = base.drop i := by
    rw [hclen]
    have h3 : (B.take ds).length = ds := by rw [List.length_take]; omega
    have h4 : ds + (i - ds) = (B.take ds).length + (i - ds) := by omega
    rw [h4, List.drop_append, List.drop_drop]
    congr 1
    omega
  rw [htk, hdp]
  have h5 : B.take ds ++ (B.drop ds).take (i - ds) = B.take i := by
    have h6 := (List.take_add B ds (i - ds)).symm
    have h7 : ds + (i - ds) = i := by omega
    rw [h7] at h6
    exact h6
  rw [h5]

/-- Applying the items produced by the scan loop, starting from a buffer
that is `B` up to the rewritten point and `base` beyond, produces `B` on
the whole scanned range. -/
theorem applyLoop_scan (A B base : List Nat) (m : Nat)
    (hmB : m ≤ B.length) (hBU : B.length < U32)
    (hblen : base.length = B.length)
    (hbase : ∀ j, j < m → base.getD j 0 = A.getD j 0) :
    ∀ (fuel i : Nat) (cd : List Nat) (ds : Nat) (buf : List Nat),
      i + fuel = m → ds ≤ i →
      ((cd = [] ∧ buf = B.take i ++ base.drop i) ∨
        (cd ≠ [] ∧ ds + cd.length = i ∧ cd = (B.drop ds).take (i - ds) ∧
          buf = B.take ds ++ base.drop ds)) →
      applyLoop (generateLoop A B fuel i cd ds) buf =
        .ok (B.take m ++ base.drop m) := by
  intro fuel
  induction fuel with
  | zero =>
    intro i cd ds buf hm hds hinv
    rw [generateLoop_flush]
    have him : i = m := by omega
    subst him
    rcases hinv with ⟨hnil, hbuf⟩ | ⟨hne, hsum, hcdv, hbuf⟩
    · rw [if_neg (by simp [hnil])]
      rw [hbuf]; rfl
    · rw [if_pos (List.length_pos.mpr hne)]
      have hstep : applyStep { Offset := ds % U32, Content := cd } buf =
          .ok (B.take i ++ base.drop i) := by
        rw [hcdv, hbuf]
        exact applyStep_close B base ds i hds (by omega) hBU hblen
      simp only [applyLoop, hstep]
  | succ f ih =>
    intro i cd ds buf hm hds hinv
    have him : i < m := by omega
    by_cases hmis : A.getD i 0 ≠ B.getD i 0
    · rw [generateLoop_mismatch A B f i cd ds hmis]
      rcases hinv with ⟨hnil, hbuf⟩ | ⟨hne, hsum, hcdv, hbuf⟩
      · subst hnil
        have h0 : (([] : List Nat)).length = 0 := rfl
        rw [if_pos h0]
        apply ih (i + 1) ([] ++ [B.getD i 0]) i buf (by omega) (by omega)
        right
        refine ⟨by simp, by simp, ?_, hbuf⟩
        have h1 : i + 1 - i = 0 + 1 := by omega
        rw [List.nil_append, h1, List.take_succ, List.take_zero, List.getElem?_drop]
        have h2 : i + 0 = i := by omega
        rw [h2, List.getElem?_eq_getElem (show i < B.length by omega)]
        simp [List.getD, List.getElem?_eq_getElem (show i < B.length by omega)]
      · rw [if_neg (fun hx => hne (List.length_eq_zero.mp hx))]
        apply ih (i + 1) (cd ++ [B.getD i 0]) ds buf (by omega) (by omega)
        right
        refine ⟨by simp, ?_, ?_, hbuf⟩
        · rw [List.length_append, List.length_singleton]; omega
        · rw [hcdv]
          exact run_extend B ds i hds (by omega)
    · push_neg at hmis
      rcases hinv with ⟨hnil, hbuf⟩ | ⟨hne, hsum, hcdv, hbuf⟩
      · subst hnil
        rw [generateLoop_match_skip A B f i ds hmis]
        apply ih (i + 1) [] ds buf (by omega) (by omega)
        left
        refine ⟨rfl, ?_⟩
        rw [hbuf]
        exact seg_extend B base i (by omega) (by omega)
          (by rw [hbase i him, hmis])
      · rw [generateLoop_match_close A B f i cd ds hmis hne]
        have hstep : applyStep { Offset := ds % U32, Content := cd } buf =
            .ok (B.take i ++ base.drop i) := by
          rw [hcdv, hbuf]
          exact applyStep_close B base ds i hds (by omega) hBU hblen
        simp only [applyLoop, hstep]
        apply ih (i + 1) [] ds _ (by omega) (by omega)
        left
        refine ⟨rfl, ?_⟩
        exact seg_extend B base i (by omega) (by omega)
          (by rw [hbase i him, hmis])

theorem applyLoop_append (l1 l2 : List PatchItem) (buf : List Nat) :
    applyLoop (l1 ++ l2) buf =
      match applyLoop l1 buf with
      | .error e => .error e
      | .ok b => applyLoop l2 b := by
  induction l1 generalizing buf with
  | nil => rfl
  | cons it rest ih =>
    simp only [List.cons_append, applyLoop]
    cases applyStep it buf with
    | error e => rfl
    | ok b => exact ih b

theorem applyBase_getD (A : List Nat) (pl j : Nat) (hj1 : j < A.length) (hj2 : j < pl) :
    (applyBase A pl).getD j 0 = A.getD j 0 := by
  unfold applyBase
  have h1 : (List.take pl A ++ List.replicate (pl - A.length) 0)[j]? = A[j]? := by
    rw [List.getElem?_append_left (by rw [List.length_take]; omega),
      List.getElem?_take, if_pos hj2]
  simp only [List.getD, List.get?_eq_getElem?, h1]

/-- The reconstruction-side summary for the trailing item that `generatePatch`
adds when the modified buffer is longer: it writes `B`'s tail beyond
`A.length` and completes the buffer to exactly `B`. -/
theorem applyStep_extra (A B : List Nat) (hlt : A.length < B.length)
    (hBU : B.length < U32) (hAm : A.length % U32 = A.length) :
    applyStep { Offset := A.length % U32, Content := B.drop A.length }
        (B.take A.length ++ (applyBase A B.length).drop A.length) =
      .ok (B.take B.length ++ (applyBase A B.length).drop B.length) := by
  have hcontent : B.drop A.length = (B.drop A.length).take (B.length - A.length) :=
    (List.take_of_length_le (by rw [List.length_drop])).symm
  rw [hAm, hcontent]
  have := applyStep_close B (applyBase A B.length) A.length B.length
    (Nat.le_of_lt hlt) (Nat.le_refl _) hBU (applyBase_length A B.length)
  rw [Nat.mod_eq_of_lt (by omega)] at this
  exact this

/-- `applyPatch` in terms of a completed loop whose checks all pass. -/
theorem applyPatch_of_loop (original : List Nat) (P : PatchFile) (buf : List Nat)
    (h1 : original.length % U32 = P.OriginalLength)
    (h2 : sha256 original = P.OriginalChecksum)
    (h3 : applyLoop P.PatchItems (applyBase original P.PatchedLength) = .ok buf)
    (h4 : buf.length % U32 = P.PatchedLength)
    (h5 : sha256 buf = P.PatchedChecksum) :
    applyPatch original P = .ok buf := by
  simp only [applyPatch, h3]
  rw [if_neg (by simp [h1]), if_neg (by simp [h2]), if_neg (by simp [h4]),
    if_neg (by simp [h5])]

/-- C1 (amended): for all non-empty byte buffers `A`, `B` of length below
`2^32` (the wire format's `uint32` domain), `generatePatch A B` succeeds and
`applyPatch A (generatePatch A B) = B`. -/
theorem c1_round_trip (A B : List Nat) (hA : A ≠ []) (hB : B ≠ [])
    (hAU : A.length < U32) (hBU : B.length < U32) :
    ∃ P, generatePatch A B = .ok P ∧ applyPatch A P = .ok B := by
  have hA0 : A.length ≠ 0 := fun h => hA (List.length_eq_zero.mp h)
  have hB0 : B.length ≠ 0 := fun h => hB (List.length_eq_zero.mp h)
  have hAm : A.length % U32 = A.length := Nat.mod_eq_of_lt hAU
  have hBm : B.length % U32 = B.length := Nat.mod_eq_of_lt hBU
  by_cases hshort : A.length % U32 = B.length % U32 ∧ sha256 A = sha256 B
  · obtain rfl : A = B := sha256_injective hshort.2
    refine ⟨{ OriginalLength := A.length % U32, OriginalChecksum := sha256 A,
              PatchedLength := A.length % U32, PatchedChecksum := sha256 A,
              PatchItems := [] }, ?_, ?_⟩
    · simp only [generatePatch]
      rw [if_neg (by push_neg; exact ⟨hA0, hA0⟩)]
      simp
    · refine applyPatch_of_loop A _ A rfl rfl ?_ rfl rfl
      show applyLoop [] (applyBase A (A.length % U32)) = .ok A
      simp only [applyLoop]
      rw [hAm]
      simp [applyBase]
  · have hgen : generatePatch A B = .ok
        { OriginalLength := A.length % U32, OriginalChecksum := sha256 A,
          PatchedLength := B.length % U32, PatchedChecksum := sha256 B,
          PatchItems := if A.length < B.length
            then generateLoop A B (min A.length B.length) 0 [] 0 ++
              [{ Offset := A.length % U32, Content := B.drop A.length }]
            else generateLoop A B (min A.length B.length) 0 [] 0 } := by
      simp only [generatePatch]
      rw [if_neg (by push_neg; exact ⟨hA0, hB0⟩), if_neg hshort]
    have hblen : (applyBase A B.length).length = B.length := applyBase_length A B.length
    have hbase_getD : ∀ j, j < min A.length B.length →
        (applyBase A B.length).getD j 0 = A.getD j 0 := by
      intro j hj
      exact applyBase_getD A B.length j (by omega) (by omega)
    have hscan := applyLoop_scan A B (applyBase A B.length) (min A.length B.length)
      (Nat.min_le_right _ _) hBU hblen hbase_getD (min A.length B.length) 0 [] 0
      (applyBase A B.length) (Nat.zero_add _) (Nat.le_refl 0)
      (by exact Or.inl ⟨rfl, by simp⟩)
    have hfin : B.take B.length ++ (applyBase A B.length).drop B.length = B := by
      rw [List.take_length, List.drop_eq_nil_of_le (Nat.le_of_eq hblen)]
      exact List.append_nil B
    have hloop : applyLoop
        (if A.length < B.length
          then generateLoop A B (min A.length B.length) 0 [] 0 ++
            [{ Offset := A.length % U32, Content := B.drop A.length }]
          else generateLoop A B (min A.length B.length) 0 [] 0)
        (applyBase A B.length) = .ok B := by
      by_cases hlt : A.length < B.length
      · have hm : min A.length B.length = A.length := min_eq_left (Nat.le_of_lt hlt)
        rw [if_pos hlt, applyLoop_append, hscan, hm]
        simp only [applyLoop]
        rw [applyStep_extra A B hlt hBU hAm, hfin]
      · have hm : min A.length B.length = B.length := min_eq_right (Nat.le_of_not_lt hlt)
        rw [if_neg hlt, hscan, hm, hfin]
    refine ⟨_, hgen, applyPatch_of_loop A _ B rfl rfl ?_ rfl rfl⟩
    show applyLoop _ (applyBase A (B.length % U32)) = .ok B
    rw [hBm]
    exact hloop

/-- Closed witness for `c1_round_trip` at concrete buffers. -/
theorem c1_witness :
    ([1, 2] : List Nat) ≠ [] ∧ ([2, 1] : List Nat) ≠ [] ∧
    ([1, 2] : List Nat).length < U32 ∧ ([2, 1] : List Nat).length < U32 ∧
    ∃ P, generatePatch [1, 2] [2, 1] = .ok P ∧ applyPatch [1, 2] P = .ok [2, 1] :=
  ⟨by decide, by decide, by decide, by decide,
    c1_round_trip [1, 2] [2, 1] (by decide) (by decide) (by decide) (by decide)⟩

/-- At a buffer of length exactly `2^32`, the patched length is stored as
`0`, `applyPatch` reconstructs the empty buffer, and the final checksum
check fails: the identity round trip is broken. -/
theorem identity_fails_at_u32 (A : List Nat) (hlen : A.length = U32) :
    ∃ P, generatePatch A A = .ok P ∧ P.PatchItems = [] ∧
      applyPatch A P = .error .patchedChecksumMismatch := by
  have hU : U32 = 4294967296 := rfl
  have hA0 : A.length ≠ 0 := by omega
  have hAne : A ≠ [] := fun h => hA0 (by rw [h]; rfl)
  have hmod : A.length % U32 = 0 := by rw [hlen]; exact Nat.mod_self U32
  refine ⟨{ OriginalLength := A.length % U32, OriginalChecksum := sha256 A,
            PatchedLength := A.length % U32, PatchedChecksum := sha256 A,
            PatchItems := [] }, ?_, rfl, ?_⟩
  · simp only [generatePatch]
    rw [if_neg (by push_neg; exact ⟨hA0, hA0⟩)]
    simp
  · have hbase : applyBase A (A.length % U32) = [] := by
      rw [hmod]
      simp [applyBase]
    have hne : sha256 ([] : List Nat) ≠ sha256 A :=
      fun h => hAne (sha256_injective h).symm
    simp only [applyPatch, hbase, applyLoop]
    rw [if_neg (by simp), if_neg (by simp), if_neg (by simp [hmod]), if_pos hne]

/-- C1 fails as stated: for the (non-empty) buffer of `2^32` zero bytes,
`applyPatch(A, generatePatch(A, A))` is an error, not `A`. -/
theorem c1_counterexample :
    List.replicate U32 0 ≠ ([] : List Nat) ∧
    ∃ P, generatePatch (List.replicate U32 0) (List.replicate U32 0) = .ok P ∧
      applyPatch (List.replicate U32 0) P = .error .patchedChecksumMismatch := by
  constructor
  · intro h
    have := congrArg List.length h
    rw [List.length_replicate] at this
    simp [U32] at this
  · obtain ⟨P, h1, _, h3⟩ := identity_fails_at_u32 (List.replicate U32 0)
      (List.length_replicate U32 0)
    exact ⟨P, h1, h3⟩

/-- C5 (amended): `generatePatch(A, A)` always succeeds with zero items (the
no-op shortcut); when additionally `A.length < 2^32`,
`applyPatch(A, generatePatch(A, A)) = A`. -/
theorem c5_identity_shortcut :
    (∀ A : List Nat, A ≠ [] →
      ∃ P, generatePatch A A = .ok P ∧ P.PatchItems = []) ∧
    (∀ A : List Nat, A ≠ [] → A.length < U32 →
      ∃ P, generatePatch A A = .ok P ∧ P.PatchItems = [] ∧
        applyPatch A P = .ok A) := by
  have hgen : ∀ A : List Nat, A ≠ [] → generatePatch A A = .ok
      { OriginalLength := A.length % U32, OriginalChecksum := sha256 A,
        PatchedLength := A.length % U32, PatchedChecksum := sha256 A,
        PatchItems := [] } := by
    intro A hA
    have hA0 : A.length ≠ 0 := fun h => hA (List.length_eq_zero.mp h)
    simp only [generatePatch]
    rw [if_neg (by push_neg; exact ⟨hA0, hA0⟩)]
    simp
  constructor
  · intro A hA
    exact ⟨_, hgen A hA, rfl⟩
  · intro A hA hAU
    have hAm : A.length % U32 = A.length := Nat.mod_eq_of_lt hAU
    refine ⟨_, hgen A hA, rfl, ?_⟩
    refine applyPatch_of_loop A _ A rfl rfl ?_ rfl rfl
    show applyLoop [] (applyBase A (A.length % U32)) = .ok A
    simp only [applyLoop]
    rw [hAm]
    simp [applyBase]

/-- Closed witness for `c5_identity_shortcut`. -/
theorem c5_witness :
    (∃ P, generatePatch [7] [7] = .ok P ∧ P.PatchItems = []) ∧
    (∃ P, generatePatch [7, 8] [7, 8] = .ok P ∧ P.PatchItems = [] ∧
      applyPatch [7, 8] P = .ok [7, 8]) :=
  ⟨c5_identity_shortcut.1 [7] (by decide),
   c5_identity_shortcut.2 [7, 8] (by decide) (by decide)⟩

/-- C5 fails as stated: at the buffer of `2^32` ones the shortcut still
yields zero items, but `applyPatch` returns an error instead of the
buffer. -/
theorem c5_counterexample :
    List.replicate U32 1 ≠ ([] : List Nat) ∧
    ∃ P, generatePatch (List.replicate U32 1) (List.replicate U32 1) = .ok P ∧
      P.PatchItems = [] ∧
      applyPatch (List.replicate U32 1) P = .error .patchedChecksumMismatch := by
  constructor
  · intro h
    have := congrArg List.length h
    rw [List.length_replicate] at this
    simp [U32] at this
  · exact identity_fails_at_u32 (List.replicate U32 1) (List.length_replicate U32 1)

/-! ## C4 and C8: shape of the generated items -/

theorem getD_append_lt (l1 l2 : List Nat) (j d : Nat) (h : j < l1.length) :
    (l1 ++ l2).getD j d = l1.getD j d := by
  simp only [List.getD, List.get?_eq_getElem?, List.getElem?_append_left h]

/-- The value of `generatePatch` when the no-op shortcut does not fire. -/
theorem generatePatch_eq_scan (A B : List Nat) (hA0 : A.length ≠ 0) (hB0 : B.length ≠ 0)
    (hshort : ¬(A.length % U32 = B.length % U32 ∧ sha256 A = sha256 B)) :
    generatePatch A B = .ok
      { OriginalLength := A.length % U32, OriginalChecksum := sha256 A,
        PatchedLength := B.length % U32, PatchedChecksum := sha256 B,
        PatchItems := if A.length < B.length
          then generateLoop A B (min A.length B.length) 0 [] 0 ++
            [{ Offset := A.length % U32, Content := B.drop A.length }]
          else generateLoop A B (min A.length B.length) 0 [] 0 } := by
  simp only [generatePatch]
  rw [if_neg (by push_neg; exact ⟨hA0, hB0⟩), if_neg hshort]

/-- The value of `generatePatch` when the no-op shortcut fires. -/
theorem generatePatch_eq_shortcut (A B : List Nat) (hA0 : A.length ≠ 0)
    (hB0 : B.length ≠ 0)
    (hshort : A.length % U32 = B.length % U32 ∧ sha256 A = sha256 B) :
    generatePatch A B = .ok
      { OriginalLength := A.length % U32, OriginalChecksum := sha256 A,
        PatchedLength := B.length % U32, PatchedChecksum := sha256 B,
        PatchItems := [] } := by
  simp only [generatePatch]
  rw [if_neg (by push_neg; exact ⟨hA0, hB0⟩), if_pos hshort]

/-- C4 (amended): for buffers within the `uint32` domain, when `modified` is
strictly longer `generatePatch` appends exactly one trailing item, with
offset `len(original)` and content the tail of `modified`, after the
scanned items; the concrete growth scenario produces exactly one item
`offset=3, content=[4,5]`; and when `modified` is not longer, every item's
offset is strictly below `len(original)`, so no such trailing item exists. -/
theorem c4_growth_item :
    (∀ A B : List Nat, A.length ≠ 0 → B.length ≠ 0 →
      A.length < U32 → B.length < U32 → A.length < B.length →
      ∃ P, generatePatch A B = .ok P ∧
        P.PatchItems = generateLoop A B (min A.length B.length) 0 [] 0 ++
          [{ Offset := A.length, Content := B.drop A.length }]) ∧
    generatePatch [1, 2, 3] [1, 2, 3, 4, 5] = .ok
      { OriginalLength := 3, OriginalChecksum := sha256 [1, 2, 3],
        PatchedLength := 5, PatchedChecksum := sha256 [1, 2, 3, 4, 5],
        PatchItems := [{ Offset := 3, Content := [4, 5] }] } ∧
    (∀ A B : List Nat, A.length ≠ 0 → B.length ≠ 0 →
      A.length < U32 → B.length < U32 → B.length ≤ A.length →
      ∀ P, generatePatch A B = .ok P →
      ∀ it ∈ P.PatchItems, it.Offset < A.length) := by
  refine ⟨?_, by decide, ?_⟩
  · intro A B hA0 hB0 hAU hBU hlt
    have hAm : A.length % U32 = A.length := Nat.mod_eq_of_lt hAU
    have hBm : B.length % U32 = B.length := Nat.mod_eq_of_lt hBU
    have hshort : ¬(A.length % U32 = B.length % U32 ∧ sha256 A = sha256 B) := by
      intro h
      have h1 := h.1
      rw [hAm, hBm] at h1
      omega
    refine ⟨_, generatePatch_eq_scan A B hA0 hB0 hshort, ?_⟩
    show (if A.length < B.length
        then generateLoop A B (min A.length B.length) 0 [] 0 ++
          [{ Offset := A.length % U32, Content := B.drop A.length }]
        else generateLoop A B (min A.length B.length) 0 [] 0) = _
    rw [if_pos hlt, hAm]
  · intro A B hA0 hB0 hAU hBU hle P hP it hit
    by_cases hshort : A.length % U32 = B.length % U32 ∧ sha256 A = sha256 B
    · rw [generatePatch_eq_shortcut A B hA0 hB0 hshort] at hP
      injection hP with h
      subst h
      simp at hit
    · rw [generatePatch_eq_scan A B hA0 hB0 hshort] at hP
      injection hP with h
      subst h
      have hm : min A.length B.length = B.length := min_eq_right hle
      obtain ⟨H1, H2⟩ := generateLoop_items_spec A B (min A.length B.length) 0 [] 0 0
        (Nat.le_refl 0) (fun hx => absurd rfl hx)
        (by rw [Nat.zero_add, hm]; omega)
        (fun _ => Nat.le_refl 0) (fun hx => absurd rfl hx)
      have hit' : it ∈ generateLoop A B (min A.length B.length) 0 [] 0 := by
        have : ¬ A.length < B.length := by omega
        simpa [this] using hit
      obtain ⟨hc, _, hsum⟩ := H1 it hit'
      have hclen : 0 < it.Content.length := List.length_pos.mpr hc
      rw [Nat.zero_add, hm] at hsum
      omega

/-- Closed witness for `c4_growth_item`. -/
theorem c4_witness :
    (∃ P, generatePatch [1, 2] [1, 2, 9] = .ok P ∧
      P.PatchItems =
        generateLoop [1, 2] [1, 2, 9]
            (min ([1, 2] : List Nat).length ([1, 2, 9] : List Nat).length) 0 [] 0 ++
          [{ Offset := ([1, 2] : List Nat).length,
             Content := ([1, 2, 9] : List Nat).drop ([1, 2] : List Nat).length }]) ∧
    (∀ it ∈ (PatchFile.mk 2 (sha256 [2, 3]) 1 (sha256 [9])
        [PatchItem.mk 0 [9]]).PatchItems,
      it.Offset < ([2, 3] : List Nat).length) :=
  ⟨c4_growth_item.1 [1, 2] [1, 2, 9] (by decide) (by decide) (by decide) (by decide)
      (by decide),
   c4_growth_item.2.2 [2, 3] [9] (by decide) (by decide) (by decide) (by decide)
      (by decide) _ (by decide)⟩

/-- At an original buffer of length exactly `2^32` and `modified` one byte
longer, the single appended trailing item carries the wrapped offset `0`,
not `len(original)`. -/
theorem growth_offset_wraps (A : List Nat) (hlen : A.length = U32) :
    ∃ P, generatePatch A (A ++ [1]) = .ok P ∧
      P.PatchItems = [{ Offset := 0, Content := [1] }] := by
  have hU : U32 = 4294967296 := rfl
  have hA0 : A.length ≠ 0 := by omega
  have hBlen : (A ++ [1]).length = U32 + 1 := by
    rw [List.length_append, hlen]
    rfl
  have hB0 : (A ++ [1]).length ≠ 0 := by omega
  have hshort : ¬(A.length % U32 = (A ++ [1]).length % U32 ∧
      sha256 A = sha256 (A ++ [1])) := by
    intro h
    have h1 := h.1
    rw [hlen, hBlen, Nat.mod_self, hU] at h1
    norm_num at h1
  have hlt : A.length < (A ++ [1]).length := by omega
  have hm : min A.length (A ++ [1]).length = A.length := min_eq_left (by omega)
  have hagree : ∀ j, 0 ≤ j → j < 0 + A.length → A.getD j 0 = (A ++ [1]).getD j 0 := by
    intro j _ hj
    rw [getD_append_lt A [1] j 0 (by omega)]
  have hscan : generateLoop A (A ++ [1]) A.length 0 [] 0 = [] := by
    have h1 := generateLoop_agree A (A ++ [1]) A.length 0 0 0 hagree
    rw [Nat.add_zero, Nat.zero_add] at h1
    rw [h1, generateLoop_flush]
    rfl
  refine ⟨_, generatePatch_eq_scan A (A ++ [1]) hA0 hB0 hshort, ?_⟩
  show (if A.length < (A ++ [1]).length
      then generateLoop A (A ++ [1]) (min A.length (A ++ [1]).length) 0 [] 0 ++
        [{ Offset := A.length % U32, Content := (A ++ [1]).drop A.length }]
      else generateLoop A (A ++ [1]) (min A.length (A ++ [1]).length) 0 [] 0) = _
  rw [if_pos hlt, hm, hscan, List.nil_append, List.drop_left, hlen, Nat.mod_self]

/-- C4 fails as stated: with `original` of length `2^32` (and `modified` one
byte longer), the appended item's offset is `0`, not `len(original)`. -/
theorem c4_counterexample :
    (List.replicate U32 0).length < (List.replicate U32 0 ++ [1]).length ∧
    (0 : Nat) ≠ (List.replicate U32 0).length ∧
    ∃ P, generatePatch (List.replicate U32 0) (List.replicate U32 0 ++ [1]) = .ok P ∧
      P.PatchItems = [{ Offset := 0, Content := [1] }] := by
  have hU : U32 = 4294967296 := rfl
  refine ⟨?_, ?_, growth_offset_wraps (List.replicate U32 0) (List.length_replicate U32 0)⟩
  · rw [List.length_append, List.length_replicate]
    simp
  · rw [List.length_replicate]
    omega

/-- C8 (amended): for buffers within the `uint32` domain, every PatchSet
produced by `generatePatch` has only non-empty item contents and its item
offsets are in strictly ascending order. -/
theorem c8_invariants (A B : List Nat) (hA0 : A.length ≠ 0) (hB0 : B.length ≠ 0)
    (hAU : A.length < U32) (hBU : B.length < U32) (P : PatchFile)
    (hP : generatePatch A B = .ok P) :
    (∀ it ∈ P.PatchItems, it.Content ≠ []) ∧
    P.PatchItems.Pairwise (fun a b => a.Offset < b.Offset) := by
  have hAm : A.length % U32 = A.length := Nat.mod_eq_of_lt hAU
  by_cases hshort : A.length % U32 = B.length % U32 ∧ sha256 A = sha256 B
  · rw [generatePatch_eq_shortcut A B hA0 hB0 hshort] at hP
    injection hP with h
    subst h
    simp
  · rw [generatePatch_eq_scan A B hA0 hB0 hshort] at hP
    injection hP with h
    subst h
    obtain ⟨H1, H2⟩ := generateLoop_items_spec A B (min A.length B.length) 0 [] 0 0
      (Nat.le_refl 0) (fun hx => absurd rfl hx)
      (by rw [Nat.zero_add]; omega)
      (fun _ => Nat.le_refl 0) (fun hx => absurd rfl hx)
    dsimp only
    by_cases hlt : A.length < B.length
    · have hm : min A.length B.length = A.length := min_eq_left (by omega)
      rw [if_pos hlt]
      constructor
      · intro it hit
        rcases List.mem_append.mp hit with h | h
        · exact (H1 it h).1
        · rw [List.mem_singleton] at h
          subst h
          show B.drop A.length ≠ []
          intro hx
          have hlen := congrArg List.length hx
          rw [List.length_drop, List.length_nil] at hlen
          omega
      · rw [List.pairwise_append]
        refine ⟨H2, List.pairwise_singleton _ _, ?_⟩
        intro a ha b hb
        rw [List.mem_singleton] at hb
        subst hb
        obtain ⟨hc, _, hsum⟩ := H1 a ha
        have hclen : 0 < a.Content.length := List.length_pos.mpr hc
        rw [Nat.zero_add, hm] at hsum
        show a.Offset < A.length % U32
        rw [hAm]
        omega
    · rw [if_neg hlt]
      exact ⟨fun it hit => (H1 it hit).1, H2⟩

/-- Closed witness for `c8_invariants`. -/
theorem c8_witness :
    (∀ it ∈ (PatchFile.mk 3 (sha256 [1, 2, 3]) 3 (sha256 [9, 2, 9])
        [PatchItem.mk 0 [9], PatchItem.mk 2 [9]]).PatchItems,
      it.Content ≠ []) ∧
    (PatchFile.mk 3 (sha256 [1, 2, 3]) 3 (sha256 [9, 2, 9])
        [PatchItem.mk 0 [9], PatchItem.mk 2 [9]]).PatchItems.Pairwise
      (fun a b => a.Offset < b.Offset) :=
  c8_invariants [1, 2, 3] [9, 2, 9] (by decide) (by decide) (by decide) (by decide)
    _ (by decide)

/-- At an original of length `2^32`, two emitted items both carry offset `0`
(the second one wrapped), so the item sequence is not strictly ascending. -/
theorem scan_offsets_wrap (T : List Nat) (hlen : T.length = U32 - 1) :
    ∃ P, generatePatch (9 :: T) ((8 :: T) ++ [5]) = .ok P ∧
      P.PatchItems = [PatchItem.mk 0 [8], PatchItem.mk 0 [5]] := by
  have hU : U32 = 4294967296 := rfl
  have hAlen : (9 :: T).length = U32 := by
    rw [List.length_cons, hlen]; omega
  have hBlen : ((8 :: T) ++ [5]).length = U32 + 1 := by
    rw [List.length_append, List.length_cons, hlen]
    simp; omega
  have hA0 : (9 :: T).length ≠ 0 := by omega
  have hB0 : ((8 :: T) ++ [5]).length ≠ 0 := by omega
  have hshort : ¬((9 :: T).length % U32 = ((8 :: T) ++ [5]).length % U32 ∧
      sha256 (9 :: T) = sha256 ((8 :: T) ++ [5])) := by
    intro h
    have h1 := h.1
    rw [hAlen, hBlen, Nat.mod_self, hU] at h1
    norm_num at h1
  have hlt : (9 :: T).length < ((8 :: T) ++ [5]).length := by omega
  have hm : min (9 :: T).length ((8 :: T) ++ [5]).length = U32 := by
    rw [hAlen, hBlen]
    omega
  have hscan : generateLoop (9 :: T) ((8 :: T) ++ [5]) U32 0 [] 0 =
      [PatchItem.mk 0 [8]] := by
    have hs1 : U32 = (U32 - 2) + 1 + 1 := by omega
    have hfirst : (9 :: T).getD 0 0 ≠ ((8 :: T) ++ [5]).getD 0 0 := by
      rw [getD_append_lt _ _ _ _ (by rw [List.length_cons]; omega)]
      simp
    have hsecond : ∀ j, 1 ≤ j → j < U32 →
        (9 :: T).getD j 0 = ((8 :: T) ++ [5]).getD j 0 := by
      intro j h1 h2
      rw [getD_append_lt _ _ _ _ (by rw [List.length_cons]; omega)]
      obtain ⟨k, rfl⟩ : ∃ k, j = k + 1 := ⟨j - 1, by omega⟩
      rw [List.getD_cons_succ, List.getD_cons_succ]
    rw [hs1, generateLoop_mismatch _ _ _ _ _ _ hfirst]
    show generateLoop (9 :: T) ((8 :: T) ++ [5]) (U32 - 2 + 1) 1 [8] 0 = _
    rw [generateLoop_match_close _ _ _ _ _ _ (hsecond 1 (Nat.le_refl 1) (by omega))
      (by simp)]
    have hrest := generateLoop_agree (9 :: T) ((8 :: T) ++ [5]) (U32 - 2) 0 2 0
      (fun j hj1 hj2 => hsecond j (by omega) (by omega))
    rw [Nat.add_zero] at hrest
    show ({ Offset := 0 % U32, Content := [8] } : PatchItem) ::
      generateLoop (9 :: T) ((8 :: T) ++ [5]) (U32 - 2) 2 [] 0 = _
    rw [hrest, generateLoop_flush]
    simp
  refine ⟨_, generatePatch_eq_scan _ _ hA0 hB0 hshort, ?_⟩
  show (if (9 :: T).length < ((8 :: T) ++ [5]).length
      then generateLoop (9 :: T) ((8 :: T) ++ [5])
          (min (9 :: T).length ((8 :: T) ++ [5]).length) 0 [] 0 ++
        [{ Offset := (9 :: T).length % U32, Content := ((8 :: T) ++ [5]).drop (9 :: T).length }]
      else generateLoop (9 :: T) ((8 :: T) ++ [5])
          (min (9 :: T).length ((8 :: T) ++ [5]).length) 0 [] 0) = _
  rw [if_pos hlt, hm, hscan, hAlen, Nat.mod_self]
  have hdrop : ((8 :: T) ++ [5]).drop U32 = [5] := by
    have h8 : (8 :: T).length = U32 := by rw [List.length_cons, hlen]; omega
    rw [← h8, List.drop_left]
  rw [hdrop]
  rfl

/-- C8 fails as stated: a PatchSet produced by `generatePatch` at buffers of
length `2^32` has two items with equal offsets — not strictly ascending. -/
theorem c8_counterexample :
    ∃ P, generatePatch (9 :: List.replicate (U32 - 1) 0)
        ((8 :: List.replicate (U32 - 1) 0) ++ [5]) = .ok P ∧
      P.PatchItems = [PatchItem.mk 0 [8], PatchItem.mk 0 [5]] ∧
      ¬ P.PatchItems.Pairwise (fun a b => a.Offset < b.Offset) := by
  obtain ⟨P, h1, h2⟩ := scan_offsets_wrap (List.replicate (U32 - 1) 0)
    (List.length_replicate (U32 - 1) 0)
  refine ⟨P, h1, h2, ?_⟩
  rw [h2]
  intro h
  have := List.rel_of_pairwise_cons h (List.mem_singleton.mpr rfl)
  simp at this

/-! ## C2: serialization round trip -/

/-- A single in-memory byte buffer as a read source (a `bytes.Reader` /
freshly opened file): one chunk holding all the bytes, or no chunk at all
when the buffer is empty (an exhausted reader). -/
def chunksOf (b : List Nat) : List (List Nat) :=
  if b = [] then [] else [b]

theorem chunksOf_ne (b : List Nat) (h : b ≠ []) : chunksOf b = [b] := by
  rw [chunksOf, if_neg h]

theorem padTo_full (n : Nat) (a : List Nat) (h : a.length = n) : padTo n a = a := by
  rw [padTo, h, Nat.sub_self]
  simp

theorem toBE_length (v : Nat) : (toBE v).length = 4 := rfl

theorem fromBE_toBE (v : Nat) (h : v < U32) : fromBE (toBE v) = v := by
  have hU : U32 = 4294967296 := rfl
  simp only [fromBE, toBE, List.foldl]
  omega

theorem rdRead_chunksOf (a b : List Nat) (n : Nat) (h : a.length = n) (ha : a ≠ []) :
    rdRead n (chunksOf (a ++ b)) = .ok (a, chunksOf b) := by
  have hab : a ++ b ≠ [] := fun hx => ha (List.append_eq_nil.mp hx).1
  rw [chunksOf_ne _ hab]
  simp only [rdRead]
  rw [← h, List.take_left, List.drop_left]
  by_cases hb : b = []
  · subst hb
    simp [chunksOf]
  · rw [if_neg (by simpa [List.isEmpty_iff] using hb), chunksOf_ne b hb]

theorem rdFull_chunksOf (a b : List Nat) (n : Nat) (h : a.length = n) :
    rdFull n (chunksOf (a ++ b)) = .ok (a, chunksOf b) := by
  by_cases ha : a = []
  · subst ha
    simp only [List.length_nil] at h
    subst h
    rw [List.nil_append]
    by_cases hb : b = []
    · subst hb
      simp [chunksOf, rdFull]
    · rw [chunksOf_ne b hb]
      simp only [rdFull]
      rw [if_pos (Nat.zero_le _)]
      simp [List.isEmpty_iff, hb]
  · have hab : a ++ b ≠ [] := fun hx => ha (List.append_eq_nil.mp hx).1
    rw [chunksOf_ne _ hab]
    simp only [rdFull]
    rw [if_pos (by rw [List.length_append]; omega)]
    rw [← h, List.take_left, List.drop_left]
    by_cases hb : b = []
    · subst hb
      simp [chunksOf]
    · rw [if_neg (by simpa [List.isEmpty_iff] using hb), chunksOf_ne b hb]

theorem readItemsV1_writeItems (items : List PatchItem) (rest : List Nat)
    (h : ∀ it ∈ items, it.Offset < U32 ∧ it.Content.length < U32 ∧ it.Content ≠ []) :
    readItemsV1 items.length (chunksOf (writeItems items ++ rest)) =
      .ok (items, chunksOf rest) := by
  induction items generalizing rest with
  | nil =>
    simp [readItemsV1, writeItems]
  | cons it tl ih =>
    obtain ⟨ho, hc, hne⟩ := h it (List.mem_cons_self it tl)
    have htl := ih rest (fun x hx => h x (List.mem_cons_of_mem _ hx))
    have e1 : rdFull 4 (chunksOf (toBE it.Offset ++ (toBE it.Content.length ++
        (it.Content ++ (writeItems tl ++ rest))))) =
        .ok (toBE it.Offset, chunksOf (toBE it.Content.length ++
          (it.Content ++ (writeItems tl ++ rest)))) :=
      rdFull_chunksOf _ _ 4 (toBE_length _)
    have e2 : rdFull 4 (chunksOf (toBE it.Content.length ++
        (it.Content ++ (writeItems tl ++ rest)))) =
        .ok (toBE it.Content.length, chunksOf (it.Content ++ (writeItems tl ++ rest))) :=
      rdFull_chunksOf _ _ 4 (toBE_length _)
    have e3 : rdRead (fromBE (toBE it.Content.length))
        (chunksOf (it.Content ++ (writeItems tl ++ rest))) =
        .ok (it.Content, chunksOf (writeItems tl ++ rest)) := by
      rw [fromBE_toBE _ hc]
      exact rdRead_chunksOf _ _ _ rfl hne
    show readItemsV1 (tl.length + 1) (chunksOf ((toBE it.Offset ++ toBE it.Content.length ++
      it.Content ++ writeItems tl) ++ rest)) = _
    simp only [List.append_assoc]
    simp only [readItemsV1, e1, e2, e3, htl]
    rw [fromBE_toBE _ ho, fromBE_toBE _ hc, padTo_full _ _ rfl]

/-- The header part of decoding an encoded PatchSet from a single-buffer
source: whatever the item loop yields on the encoded items, `readPatchFile`
returns the stored header fields together with those decoded items. -/
theorem readPatchFile_decomposed (P : PatchFile)
    (h1 : P.OriginalLength < U32) (h2 : P.PatchedLength < U32)
    (h3 : P.OriginalChecksum.length = 32) (h4 : P.PatchedChecksum.length = 32)
    (h5 : P.PatchItems.length < U32)
    (decoded : List PatchItem) (rest : List (List Nat))
    (hitems : readItemsV1 P.PatchItems.length (chunksOf (writeItems P.PatchItems)) =
      .ok (decoded, rest)) :
    readPatchFile [writePatchFile P] = .ok (PatchFile.mk P.OriginalLength
      P.OriginalChecksum P.PatchedLength P.PatchedChecksum decoded) := by
  have hoc_ne : P.OriginalChecksum ≠ [] := by
    intro hx; rw [hx] at h3; simp at h3
  have hpc_ne : P.PatchedChecksum ≠ [] := by
    intro hx; rw [hx] at h4; simp at h4
  have hwire_ne : writePatchFile P ≠ [] := by
    intro hx
    have := congrArg List.length hx
    simp [writePatchFile] at this
  rw [← chunksOf_ne _ hwire_ne]
  show readPatchFile (chunksOf (IDENTIFIER ++ [VERSION_MAJOR, VERSION_MINOR] ++
    toBE P.OriginalLength ++ P.OriginalChecksum ++ toBE P.PatchedLength ++
    P.PatchedChecksum ++ toBE P.PatchItems.length ++ writeItems P.PatchItems)) = _
  simp only [List.append_assoc]
  have e1 := rdRead_chunksOf IDENTIFIER ([VERSION_MAJOR, VERSION_MINOR] ++
    (toBE P.OriginalLength ++ (P.OriginalChecksum ++ (toBE P.PatchedLength ++
    (P.PatchedChecksum ++ (toBE P.PatchItems.length ++ writeItems P.PatchItems))))))
    8 rfl (by decide)
  have e2 := rdRead_chunksOf [VERSION_MAJOR, VERSION_MINOR]
    (toBE P.OriginalLength ++ (P.OriginalChecksum ++ (toBE P.PatchedLength ++
    (P.PatchedChecksum ++ (toBE P.PatchItems.length ++ writeItems P.PatchItems)))))
    2 rfl (by decide)
  have e3 := rdFull_chunksOf (toBE P.OriginalLength)
    (P.OriginalChecksum ++ (toBE P.PatchedLength ++
    (P.PatchedChecksum ++ (toBE P.PatchItems.length ++ writeItems P.PatchItems))))
    4 (toBE_length _)
  have e4 := rdRead_chunksOf P.OriginalChecksum
    (toBE P.PatchedLength ++ (P.PatchedChecksum ++
    (toBE P.PatchItems.length ++ writeItems P.PatchItems)))
    32 h3 hoc_ne
  have e5 := rdFull_chunksOf (toBE P.PatchedLength)
    (P.PatchedChecksum ++ (toBE P.PatchItems.length ++ writeItems P.PatchItems))
    4 (toBE_length _)
  have e6 := rdRead_chunksOf P.PatchedChecksum
    (toBE P.PatchItems.length ++ writeItems P.PatchItems)
    32 h4 hpc_ne
  have e7 := rdFull_chunksOf (toBE P.PatchItems.length) (writeItems P.PatchItems)
    4 (toBE_length _)
  simp only [readPatchFile, e1, e2, e3, e4, e5, e6, e7]
  rw [padTo_full 8 IDENTIFIER rfl, padTo_full 2 [VERSION_MAJOR, VERSION_MINOR] rfl,
    padTo_full 32 P.OriginalChecksum h3, padTo_full 32 P.PatchedChecksum h4,
    fromBE_toBE _ h5]
  simp only [hitems]
  rw [if_neg (by simp), if_neg (by decide)]
  rw [fromBE_toBE _ h1, fromBE_toBE _ h2]

/-- Decoding the encoded bytes of a well-formed PatchSet (all `uint32` fields
in range, 32-byte checksums, non-empty item contents) from a single-buffer
source recovers it field for field. -/
theorem readPatchFile_writePatchFile (P : PatchFile)
    (h1 : P.OriginalLength < U32) (h2 : P.PatchedLength < U32)
    (h3 : P.OriginalChecksum.length = 32) (h4 : P.PatchedChecksum.length = 32)
    (h5 : P.PatchItems.length < U32)
    (h6 : ∀ it ∈ P.PatchItems, it.Offset < U32 ∧ it.Content.length < U32 ∧
      it.Content ≠ []) :
    readPatchFile [writePatchFile P] = .ok P := by
  have hitems := readItemsV1_writeItems P.PatchItems [] h6
  rw [List.append_nil] at hitems
  have := readPatchFile_decomposed P h1 h2 h3 h4 h5 P.PatchItems (chunksOf []) hitems
  rw [this]

/-- The scan loop emits at most one item per two scanned positions (a run
plus its closing match), plus the flushed run. -/
theorem generateLoop_length (A B : List Nat) :
    ∀ (fuel i : Nat) (cd : List Nat) (ds : Nat),
      2 * (generateLoop A B fuel i cd ds).length ≤
        fuel + 2 + (if cd = [] then 0 else 1) := by
  intro fuel
  induction fuel with
  | zero =>
    intro i cd ds
    rw [generateLoop_flush]
    by_cases hc : cd = []
    · rw [if_neg (by simp [hc]), if_pos hc]
      simp
    · rw [if_pos (List.length_pos.mpr hc), if_neg hc]
      simp
  | succ f ih =>
    intro i cd ds
    by_cases hmis : A.getD i 0 ≠ B.getD i 0
    · rw [generateLoop_mismatch A B f i cd ds hmis]
      have hne : cd ++ [B.getD i 0] ≠ [] := fun hx => by simp at hx
      have hb := ih (i + 1) (cd ++ [B.getD i 0]) (if cd.length = 0 then i else ds)
      rw [if_neg hne] at hb
      by_cases hc : cd = []
      · rw [if_pos hc]; omega
      · rw [if_neg hc]; omega
    · push_neg at hmis
      by_cases hc : cd = []
      · subst hc
        rw [generateLoop_match_skip A B f i ds hmis]
        have := ih (i + 1) [] ds
        rw [if_pos rfl] at this
        rw [if_pos rfl]
        omega
      · rw [generateLoop_match_close A B f i cd ds hmis hc]
        have := ih (i + 1) [] ds
        rw [if_pos rfl] at this
        rw [if_neg hc, List.length_cons]
        omega

/-- Every PatchSet produced by `generatePatch` from buffers in the `uint32`
domain is well-formed for the wire format. -/
theorem generatePatch_wf (A B : List Nat) (hA0 : A.length ≠ 0) (hB0 : B.length ≠ 0)
    (hAU : A.length < U32) (hBU : B.length < U32) (P : PatchFile)
    (hP : generatePatch A B = .ok P) :
    P.OriginalLength < U32 ∧ P.PatchedLength < U32 ∧
    P.OriginalChecksum.length = 32 ∧ P.PatchedChecksum.length = 32 ∧
    P.PatchItems.length < U32 ∧
    ∀ it ∈ P.PatchItems, it.Offset < U32 ∧ it.Content.length < U32 ∧
      it.Content ≠ [] := by
  have hU : U32 = 4294967296 := rfl
  have hAm : A.length % U32 = A.length := Nat.mod_eq_of_lt hAU
  have hBm : B.length % U32 = B.length := Nat.mod_eq_of_lt hBU
  by_cases hshort : A.length % U32 = B.length % U32 ∧ sha256 A = sha256 B
  · rw [generatePatch_eq_shortcut A B hA0 hB0 hshort] at hP
    injection hP with h
    subst h
    refine ⟨by simpa [hAm] using hAU, by simpa [hBm] using hBU,
      sha256_length A, sha256_length B, by simpa using (by omega : (0:Nat) < U32), by simp⟩
  · rw [generatePatch_eq_scan A B hA0 hB0 hshort] at hP
    injection hP with h
    subst h
    obtain ⟨H1, H2⟩ := generateLoop_items_spec A B (min A.length B.length) 0 [] 0 0
      (Nat.le_refl 0) (fun hx => absurd rfl hx)
      (by rw [Nat.zero_add]; omega)
      (fun _ => Nat.le_refl 0) (fun hx => absurd rfl hx)
    have hcount := generateLoop_length A B (min A.length B.length) 0 [] 0
    rw [if_pos rfl] at hcount
    have hmle : min A.length B.length ≤ A.length := Nat.min_le_left _ _
    refine ⟨by simpa [hAm] using hAU, by simpa [hBm] using hBU,
      sha256_length A, sha256_length B, ?_, ?_⟩
    · dsimp only
      by_cases hlt : A.length < B.length
      · rw [if_pos hlt, List.length_append, List.length_singleton]
        omega
      · rw [if_neg hlt]
        omega
    · dsimp only
      intro it hit
      by_cases hlt : A.length < B.length
      · rw [if_pos hlt] at hit
        rcases List.mem_append.mp hit with hmem | hmem
        · obtain ⟨hc, _, hsum⟩ := H1 it hmem
          rw [Nat.zero_add] at hsum
          exact ⟨by omega, by omega, hc⟩
        · rw [List.mem_singleton] at hmem
          subst hmem
          refine ⟨by simpa [hAm] using hAU, ?_, ?_⟩
          · show (B.drop A.length).length < U32
            rw [List.length_drop]
            omega
          · show B.drop A.length ≠ []
            intro hx
            have hlen := congrArg List.length hx
            rw [List.length_drop, List.length_nil] at hlen
            omega
      · rw [if_neg hlt] at hit
        obtain ⟨hc, _, hsum⟩ := H1 it hit
        rw [Nat.zero_add] at hsum
        exact ⟨by omega, by omega, hc⟩

/-- C2 (amended): for every PatchSet produced by `generatePatch` from
buffers of length below `2^32`, encoding and then decoding (from a
single in-memory buffer source) recovers the PatchSet field for field. -/
theorem c2_serialization_round_trip (A B : List Nat)
    (hA0 : A.length ≠ 0) (hB0 : B.length ≠ 0)
    (hAU : A.length < U32) (hBU : B.length < U32) (P : PatchFile)
    (hP : generatePatch A B = .ok P) :
    readPatchFile [writePatchFile P] = .ok P := by
  obtain ⟨h1, h2, h3, h4, h5, h6⟩ := generatePatch_wf A B hA0 hB0 hAU hBU P hP
  exact readPatchFile_writePatchFile P h1 h2 h3 h4 h5 h6

/-- Closed witness for `c2_serialization_round_trip`. -/
theorem c2_witness :
    ∃ P, generatePatch [1, 2] [9, 9, 7] = .ok P ∧
      readPatchFile [writePatchFile P] = .ok P := by
  refine ⟨_, rfl, c2_serialization_round_trip [1, 2] [9, 9, 7]
    (by decide) (by decide) (by decide) (by decide) _ rfl⟩

/-- Encoding an item whose content length is exactly `2^32` stores the
wrapped length `0`, so decoding reads back an empty content: the
serialization round trip fails for this generated PatchSet. -/
theorem huge_item_decode (C : List Nat) (hClen : C.length = U32) :
    ∃ P, generatePatch [1] (2 :: C) = .ok P ∧
      readPatchFile [writePatchFile P] ≠ .ok P := by
  have hU : U32 = 4294967296 := rfl
  have hCne : C ≠ [] := by
    intro hx
    rw [hx] at hClen
    simp at hClen
    omega
  have hBlen : (2 :: C).length = U32 + 1 := by rw [List.length_cons, hClen]
  have hA0 : ([1] : List Nat).length ≠ 0 := by decide
  have hB0 : (2 :: C).length ≠ 0 := by omega
  have h1m : (1 : Nat) % U32 = 1 := Nat.mod_eq_of_lt (by omega)
  have hshort : ¬(([1] : List Nat).length % U32 = (2 :: C).length % U32 ∧
      sha256 [1] = sha256 (2 :: C)) := by
    intro h
    have heq := sha256_injective h.2
    rw [List.cons.injEq] at heq
    exact absurd heq.1 (by norm_num)
  have hm : min ([1] : List Nat).length (2 :: C).length = 1 := by
    rw [hBlen]
    show min 1 (U32 + 1) = 1
    exact min_eq_left (by omega)
  have hlt : ([1] : List Nat).length < (2 :: C).length := by
    rw [hBlen]
    show 1 < U32 + 1
    omega
  have hmis0 : ([1] : List Nat).getD 0 0 ≠ (2 :: C).getD 0 0 := by simp
  have hscan : generateLoop [1] (2 :: C) 1 0 [] 0 = [PatchItem.mk 0 [2]] := by
    rw [show (1 : Nat) = 0 + 1 from rfl, generateLoop_mismatch _ _ _ _ _ _ hmis0]
    show generateLoop [1] (2 :: C) 0 1 [2] 0 = _
    rw [generateLoop_flush]
    simp
  have hgen2 : generatePatch [1] (2 :: C) = .ok (PatchFile.mk (1 % U32) (sha256 [1])
      ((2 :: C).length % U32) (sha256 (2 :: C)) [PatchItem.mk 0 [2], PatchItem.mk 1 C]) := by
    rw [generatePatch_eq_scan [1] (2 :: C) hA0 hB0 hshort]
    rw [if_pos hlt, hm, hscan]
    show Except.ok (PatchFile.mk (1 % U32) (sha256 [1]) ((2 :: C).length % U32)
      (sha256 (2 :: C)) ([PatchItem.mk 0 [2]] ++ [PatchItem.mk (1 % U32) C])) = _
    rw [h1m]
    rfl
  refine ⟨_, hgen2, ?_⟩
  -- now compute the decode
  have htoC : fromBE (toBE C.length) = 0 := by
    rw [hClen]
    decide
  have hitems : readItemsV1 ([PatchItem.mk 0 [2], PatchItem.mk 1 C] : List PatchItem).length
      (chunksOf (writeItems [PatchItem.mk 0 [2], PatchItem.mk 1 C])) =
      .ok ([PatchItem.mk 0 [2], PatchItem.mk 1 []], chunksOf C) := by
    show readItemsV1 (1 + 1) (chunksOf (toBE 0 ++ (toBE 1 ++ ([2] ++ (toBE 1 ++
      (toBE C.length ++ (C ++ []))))))) = _
    rw [List.append_nil]
    have e1 := rdFull_chunksOf (toBE 0)
      (toBE 1 ++ ([2] ++ (toBE 1 ++ (toBE C.length ++ C)))) 4 (toBE_length _)
    have e2 := rdFull_chunksOf (toBE 1)
      ([2] ++ (toBE 1 ++ (toBE C.length ++ C))) 4 (toBE_length _)
    have e3 : rdRead (fromBE (toBE 1))
        (chunksOf ([2] ++ (toBE 1 ++ (toBE C.length ++ C)))) =
        .ok ([2], chunksOf (toBE 1 ++ (toBE C.length ++ C))) := by
      rw [fromBE_toBE 1 (by omega)]
      exact rdRead_chunksOf _ _ _ rfl (by decide)
    have e4 := rdFull_chunksOf (toBE 1) (toBE C.length ++ C) 4 (toBE_length _)
    have e5 := rdFull_chunksOf (toBE C.length) C 4 (toBE_length _)
    have e6 : rdRead (fromBE (toBE C.length)) (chunksOf C) = .ok ([], chunksOf C) := by
      rw [htoC, chunksOf_ne C hCne]
      simp [rdRead, List.isEmpty_iff, hCne]
    simp only [readItemsV1, e1, e2, e3, e4, e5, e6]
    rw [fromBE_toBE 0 (by omega), fromBE_toBE 1 (by omega), htoC]
    rfl
  have hdec := readPatchFile_decomposed (PatchFile.mk (1 % U32) (sha256 [1])
      ((2 :: C).length % U32) (sha256 (2 :: C)) [PatchItem.mk 0 [2], PatchItem.mk 1 C])
    (Nat.mod_lt 1 (by omega))
    (Nat.mod_lt _ (by omega))
    (sha256_length _) (sha256_length _)
    (by show ([PatchItem.mk 0 [2], PatchItem.mk 1 C] : List PatchItem).length < U32
        simp; omega)
    [PatchItem.mk 0 [2], PatchItem.mk 1 []] (chunksOf C) hitems
  rw [hdec]
  intro hx
  injection hx with hx2
  have hfields := congrArg PatchFile.PatchItems hx2
  simp only at hfields
  rw [List.cons.injEq, List.cons.injEq] at hfields
  have hcc := hfields.2.1
  have := congrArg PatchItem.Content hcc
  simp only at this
  exact hCne this.symm

/-- C2 fails as stated: the PatchSet generated from `[1]` and a modified
buffer of length `2^32 + 1` has a trailing item with `2^32` content bytes;
its stored content length wraps to `0` on the wire, so decoding the encoded
bytes does not return the original PatchSet. -/
theorem c2_counterexample :
    ∃ P, generatePatch [1] (2 :: List.replicate U32 3) = .ok P ∧
      readPatchFile [writePatchFile P] ≠ .ok P :=
  huge_item_decode (List.replicate U32 3) (List.length_replicate U32 3)
